import Mathlib

/-!
Verification development for the aa-bundler mempool subsystem.

Part 1 embeds the canonical codec of
`crates/primitives/src/user_operation.rs`: the `UserOperation` record, its
signature-commitment encoding (`pack_for_signature` via `UserOperationPacked`)
and the identifier derivation (`UserOperation::hash`).

Machine integers: `Address` (20 bytes) and `U256` are embedded as `Nat`
(values are below `2 ^ 160` resp. `2 ^ 256`; the ABI encoder reduces mod
`2 ^ 256` where overflow would matter).  Byte strings (`Bytes`, `H256`) are
`List Nat` of byte values.

The 256-bit cryptographic hash `keccak256` is an external primitive (the
`ethers` crate); every definition that uses it takes it as an explicit
function parameter `keccak : List Nat → List Nat`, so the theorems hold for
any choice of that primitive.
-/

/-- A byte string: each entry is one byte value. -/
abbrev ByteList := List Nat

/-- Big-endian base-256 digits of `n`, `k` bytes wide (most significant
first), i.e. the ABI word encoding of a scalar when `k = 32`. -/
def beBytes : Nat → Nat → ByteList
  | 0, _ => []
  | k + 1, n => beBytes k (n / 256) ++ [n % 256]

/-- The 32-byte ABI encoding of a `U256` scalar (big-endian, left-padded). -/
def abiWordU256 (n : Nat) : ByteList := beBytes 32 n

/-- The 32-byte ABI encoding of an `Address` (20 bytes, left-padded with 12
zero bytes; an address value is below `2 ^ 160`). -/
def abiWordAddress (a : Nat) : ByteList := beBytes 32 a

/-- `UserOperation` from `user_operation.rs`: sender, nonce, three byte
fields, five scalar fields, and the signature. -/
structure UserOperation where
  sender : Nat
  nonce : Nat
  init_code : ByteList
  call_data : ByteList
  call_gas_limit : Nat
  verification_gas_limit : Nat
  pre_verification_gas : Nat
  max_fee_per_gas : Nat
  max_priority_fee_per_gas : Nat
  paymaster_and_data : ByteList
  signature : ByteList
deriving DecidableEq, Repr

/-- `UserOperationPacked` from `user_operation.rs`: the signature-commitment
shape — the three variable-length fields replaced by 32-byte content hashes
(`H256`, kept here as the raw 32-byte list), the signature dropped. -/
structure UserOperationPacked where
  sender : Nat
  nonce : Nat
  init_code : ByteList
  call_data : ByteList
  call_gas_limit : Nat
  verification_gas_limit : Nat
  pre_verification_gas : Nat
  max_fee_per_gas : Nat
  max_priority_fee_per_gas : Nat
  paymaster_and_data : ByteList
deriving DecidableEq, Repr

/-- `impl From<UserOperation> for UserOperationPacked`: copy the fixed-width
fields, hash the three variable-length fields with `keccak256`, drop the
signature. -/
def UserOperationPacked.ofUserOperation (keccak : ByteList → ByteList)
    (u : UserOperation) : UserOperationPacked where
  sender := u.sender
  nonce := u.nonce
  init_code := keccak u.init_code
  call_data := keccak u.call_data
  call_gas_limit := u.call_gas_limit
  verification_gas_limit := u.verification_gas_limit
  pre_verification_gas := u.pre_verification_gas
  max_fee_per_gas := u.max_fee_per_gas
  max_priority_fee_per_gas := u.max_priority_fee_per_gas
  paymaster_and_data := keccak u.paymaster_and_data

/-- The derived ABI tuple encoding of `UserOperationPacked` (`EthAbiCodec`):
all ten fields are static 32-byte words, concatenated in declared order.
The `H256` fields are emitted verbatim; scalars and the address are encoded
as big-endian 32-byte words. -/
def UserOperationPacked.encode (p : UserOperationPacked) : ByteList :=
  abiWordAddress p.sender ++
  abiWordU256 p.nonce ++
  p.init_code ++
  p.call_data ++
  abiWordU256 p.call_gas_limit ++
  abiWordU256 p.verification_gas_limit ++
  abiWordU256 p.pre_verification_gas ++
  abiWordU256 p.max_fee_per_gas ++
  abiWordU256 p.max_priority_fee_per_gas ++
  p.paymaster_and_data

/-- `UserOperation::pack_for_signature`: ABI-encode the packed
(signature-commitment) form of the operation. -/
def UserOperation.pack_for_signature (keccak : ByteList → ByteList)
    (u : UserOperation) : ByteList :=
  (UserOperationPacked.ofUserOperation keccak u).encode

/-- `UserOperation::hash`: keccak over the concatenation
`[keccak(pack_for_signature), entry_point.encode(), chain_id.encode()]`
(the Rust `[..].concat()` is `List.join` of the three byte strings). -/
def UserOperation.hash (keccak : ByteList → ByteList) (u : UserOperation)
    (entry_point chain_id : Nat) : ByteList :=
  keccak (List.flatten
    [keccak (u.pack_for_signature keccak),
     abiWordAddress entry_point,
     abiWordU256 chain_id])

/-- The identifier derivation exactly as the spec words it: compute
`H1 = hash(signature-commitment encoding)`, then
`H2 = hash(H1 || abi_encode(entry_point_address) || abi_encode(chain_id))`;
the identifier is `H2`. -/
def specIdentifier (keccak : ByteList → ByteList) (u : UserOperation)
    (entry_point chain_id : Nat) : ByteList :=
  let h1 := keccak (u.pack_for_signature keccak)
  let h2 := keccak (h1 ++ abiWordAddress entry_point ++ abiWordU256 chain_id)
  h2

/-!
Part 2 embeds `crates/uopool/src/database/mempool.rs`: the three MDBX tables
(`UserOperationDB`, `SenderUserOperationDB`, `CodeHashDB`) and the
`Mempool` implementation on `DatabaseMempool`.

The Key/Value Adapter newtypes (`WrapUserOperationHash`, `WrapAddress`,
`WrapUserOperation`, `WrapCodeHash` from `database/utils`) are not among the
sources; per the spec they are deterministic, order-preserving encode/decode
adapters for the domain types, so tables here hold the domain values
directly (the adapters are the identity of the model).

Storage-engine (libmdbx via reth_db) semantics are embedded as association
lists: a plain table keeps at most one value per key (`tblPut` is an
upsert); a dup-sorted table keeps a set of (key, value) pairs (`dupPut`
inserts the pair when absent, pairs are unique), `dupWalk` enumerates the
values under a key (MDBX yields them sorted by encoded value; no claim
below depends on that order, and the model keeps insertion order).

Backend failures are embedded by a fault-injection record `Faults`: each
kind of engine call consults its flag and fails with the wrapped internal
error when set (the Rust error payload is abstracted away).  A transaction
whose computation returns `Except.error` was never committed, so the caller
keeps the pre-state.
-/

/-- Point lookup in an association-list table: first value stored under the
key (for a dup-sorted table this is MDBX `get`, returning the first
duplicate). -/
def tblGet {κ α : Type} [DecidableEq κ] : List (κ × α) → κ → Option α
  | [], _ => none
  | (k, v) :: rest, h => if k = h then some v else tblGet rest h

/-- `tx.delete (key, None)`: drop every entry stored under the key. -/
def tblDelKey {κ α : Type} [DecidableEq κ] : List (κ × α) → κ → List (κ × α)
  | [], _ => []
  | (k, v) :: rest, h =>
      if k = h then tblDelKey rest h else (k, v) :: tblDelKey rest h

/-- `tx.put` on a plain table: upsert, replacing any value under the key. -/
def tblPut {κ α : Type} [DecidableEq κ] (t : List (κ × α)) (h : κ) (v : α) :
    List (κ × α) :=
  (h, v) :: tblDelKey t h

/-- `tx.put` on a dup-sorted table: insert the (key, value) pair; pairs in a
dup-sorted table are unique, so re-inserting an existing pair is a no-op. -/
def dupPut {κ α : Type} [DecidableEq κ] [DecidableEq α] (t : List (κ × α))
    (k : κ) (v : α) : List (κ × α) :=
  if (k, v) ∈ t then t else t ++ [(k, v)]

/-- `tx.delete (key, Some value)` on a dup-sorted table: drop exactly that
(key, value) pair. -/
def dupDelVal {κ α : Type} [DecidableEq κ] [DecidableEq α] :
    List (κ × α) → κ → α → List (κ × α)
  | [], _, _ => []
  | p :: rest, k, v =>
      if p = (k, v) then dupDelVal rest k v else p :: dupDelVal rest k v

/-- `cursor.walk_dup (Some key, Some zero_subkey)`: every value stored under
the key. -/
def dupWalk {κ α : Type} [DecidableEq κ] : List (κ × α) → κ → List α
  | [], _ => []
  | (k, v) :: rest, h => if k = h then v :: dupWalk rest h else dupWalk rest h

/-- Modelled from the spec: the `CodeHash` record of the primitives crate is
not among the sources; per the spec it is a (contract address, 32-byte code
hash) pair associated with an operation identifier. -/
structure CodeHash where
  address : Nat
  hash : Nat
deriving DecidableEq, Repr

/-- The three tables of the database mempool (§ TABLES in `mempool.rs`):
`UserOperationDB` (plain, identifier → operation), `SenderUserOperationDB`
(dup-sorted, sender → operation), `CodeHashDB` (dup-sorted,
identifier → code-hash record). -/
structure DBState where
  userOpDB : List (ByteList × UserOperation)
  senderUserOpDB : List (Nat × UserOperation)
  codeHashDB : List (ByteList × CodeHash)
deriving DecidableEq, Repr

/-- The empty store (all three tables empty). -/
def emptyDB : DBState := ⟨[], [], []⟩

/-- `DBError` from `mempool.rs`; the reth `Error` payload of
`DBInternalError` is abstracted away. -/
inductive DBError
  | DBInternalError
  | NotFound
deriving DecidableEq, Repr

/-- Fault injection for the storage engine: each flag makes the
corresponding kind of engine call fail.  `walkStep = some i` makes the
`i`-th step of a cursor walk fail (no failure when the walk is shorter). -/
structure Faults where
  txRO : Bool := false
  txRW : Bool := false
  cursorOpen : Bool := false
  walkStep : Option Nat := none
  getStep : Bool := false
  putStep : Bool := false
  delStep : Bool := false
  clearStep : Bool := false
  commitStep : Bool := false
deriving DecidableEq, Repr

/-- The fault-free backend. -/
def noFaults : Faults := {}

/-- An engine call that fails (with the wrapped internal error) when its
fault flag is set. -/
def failIf (b : Bool) : Except DBError Unit :=
  if b then .error .DBInternalError else .ok ()

/-- A cursor walk collected via `Result`: the listed values, unless the
injected step failure occurs inside the walk. -/
def walkCollect {α : Type} (f : Faults) (vals : List α) :
    Except DBError (List α) :=
  match f.walkStep with
  | some i => if i < vals.length then .error .DBInternalError else .ok vals
  | none => .ok vals

namespace DatabaseMempool

/-- `DatabaseMempool::add`: derive the identifier, then in one read-write
transaction upsert the operation into the primary table and insert it into
the sender index, and commit (both `put` calls consult the same fault
flag). -/
def add (keccak : ByteList → ByteList) (f : Faults) (st : DBState)
    (user_operation : UserOperation) (entry_point chain_id : Nat) :
    Except DBError (ByteList × DBState) := do
  let h := user_operation.hash keccak entry_point chain_id
  failIf f.txRW
  failIf f.putStep
  let st1 := { st with
    userOpDB := tblPut st.userOpDB h user_operation,
    senderUserOpDB :=
      dupPut st.senderUserOpDB user_operation.sender user_operation }
  failIf f.commitStep
  pure (h, st1)

/-- `DatabaseMempool::get`: point lookup in the primary table inside a
read-only transaction. -/
def get (f : Faults) (st : DBState) (h : ByteList) :
    Except DBError (Option UserOperation) := do
  failIf f.txRO
  failIf f.getStep
  let res := tblGet st.userOpDB h
  failIf f.commitStep
  pure res

/-- The fallible body of `DatabaseMempool::get_all_by_sender` (the
`tx().and_then(..)` chain): open a read-only transaction and a dup cursor,
walk the sender's duplicates, commit. -/
def get_all_by_senderE (f : Faults) (st : DBState) (sender : Nat) :
    Except DBError (List UserOperation) := do
  failIf f.txRO
  failIf f.cursorOpen
  let res ← walkCollect f (dupWalk st.senderUserOpDB sender)
  failIf f.commitStep
  pure res

/-- `DatabaseMempool::get_all_by_sender`: the fallible body with
`unwrap_or_else(|_| vec![])` — any backend failure yields the empty list. -/
def get_all_by_sender (f : Faults) (st : DBState) (sender : Nat) :
    List UserOperation :=
  match get_all_by_senderE f st sender with
  | .ok res => res
  | .error _ => []

/-- The fallible body of `DatabaseMempool::get_code_hashes`. -/
def get_code_hashesE (f : Faults) (st : DBState) (h : ByteList) :
    Except DBError (List CodeHash) := do
  failIf f.txRO
  failIf f.cursorOpen
  let res ← walkCollect f (dupWalk st.codeHashDB h)
  failIf f.commitStep
  pure res

/-- `DatabaseMempool::get_code_hashes`: the fallible body with
`unwrap_or_else(|_| vec![])`. -/
def get_code_hashes (f : Faults) (st : DBState) (h : ByteList) :
    List CodeHash :=
  match get_code_hashesE f st h with
  | .ok res => res
  | .error _ => []

/-- The fallible body of `DatabaseMempool::get_all`: full scan of the
primary table from the zero key (MDBX yields entries in key order; the
model keeps representation order, on which no claim depends). -/
def get_allE (f : Faults) (st : DBState) :
    Except DBError (List UserOperation) := do
  failIf f.txRO
  failIf f.cursorOpen
  let res ← walkCollect f (st.userOpDB.map (fun p => p.2))
  failIf f.commitStep
  pure res

/-- `DatabaseMempool::get_all`: the fallible body with
`unwrap_or_else(|_| vec![])`. -/
def get_all (f : Faults) (st : DBState) : List UserOperation :=
  match get_allE f st with
  | .ok res => res
  | .error _ => []

/-- `DatabaseMempool::set_code_hashes`: in one read-write transaction, if
any record exists under the identifier delete them all, then insert each
supplied record (the whole `put` loop consults one fault flag), and
commit. -/
def set_code_hashes (f : Faults) (st : DBState) (h : ByteList)
    (code_hashes : List CodeHash) : Except DBError DBState := do
  failIf f.txRW
  failIf f.getStep
  let res := tblGet st.codeHashDB h
  let st1 ←
    if res.isSome then do
      failIf f.delStep
      pure { st with codeHashDB := tblDelKey st.codeHashDB h }
    else
      pure st
  if !code_hashes.isEmpty then failIf f.putStep
  let st2 := { st1 with
    codeHashDB := code_hashes.foldl (fun t ch => dupPut t h ch) st1.codeHashDB }
  failIf f.commitStep
  pure st2

/-- `DatabaseMempool::remove`: in one read-write transaction, look the
operation up; when present delete it from the primary table, delete the
(sender, operation) pair from the sender index, delete every code-hash
record under the identifier (the three `delete` calls consult one fault
flag), and commit; when absent, fail with `NotFound` (nothing committed). -/
def remove (f : Faults) (st : DBState) (h : ByteList) :
    Except DBError DBState := do
  failIf f.txRW
  failIf f.getStep
  match tblGet st.userOpDB h with
  | some user_op => do
      failIf f.delStep
      let st1 : DBState := { st with
        userOpDB := tblDelKey st.userOpDB h,
        senderUserOpDB := dupDelVal st.senderUserOpDB user_op.sender user_op,
        codeHashDB := tblDelKey st.codeHashDB h }
      failIf f.commitStep
      pure st1
  | none => .error .NotFound

/-- The comparator of `get_sorted`'s `sort_by`, as a `≤` test: `a` may come
before `b` iff `a` has the strictly larger max priority fee, or the fees are
equal and `a` has the smaller-or-equal nonce. -/
def uoLE (a b : UserOperation) : Bool :=
  if a.max_priority_fee_per_gas = b.max_priority_fee_per_gas then
    a.nonce ≤ b.nonce
  else
    b.max_priority_fee_per_gas < a.max_priority_fee_per_gas

/-- `DatabaseMempool::get_sorted`: scan the whole primary table, then sort
in memory by descending max priority fee with ascending nonce as the
tie-break (Rust's stable `sort_by` is a merge sort); backend failures are
propagated (`map_err(DBError::DBInternalError)`). -/
def get_sorted (f : Faults) (st : DBState) :
    Except DBError (List UserOperation) := do
  failIf f.txRO
  failIf f.cursorOpen
  let user_ops ← walkCollect f (st.userOpDB.map (fun p => p.2))
  pure (user_ops.mergeSort uoLE)

/-- The outcome of `DatabaseMempool::clear`, which returns no `Result`: it
either succeeds or panics. -/
inductive ClearOutcome
  | ok (st : DBState)
  | panicked (msg : String)
deriving DecidableEq, Repr

/-- The fallible body of `DatabaseMempool::clear` (the
`tx_mut().and_then(..)` chain): empty the primary table and the sender
index (the two `clear` calls consult one fault flag) and commit.  The
code-hash table is not touched. -/
def clearE (f : Faults) (st : DBState) : Except DBError DBState := do
  failIf f.txRW
  failIf f.clearStep
  let st1 := { st with userOpDB := [], senderUserOpDB := [] }
  failIf f.commitStep
  pure st1

/-- `DatabaseMempool::clear`: the fallible body with
`.expect("Clear database failed")` — a backend failure becomes a panic, not
an error value. -/
def clear (f : Faults) (st : DBState) : ClearOutcome :=
  match clearE f st with
  | .ok st1 => .ok st1
  | .error _ => .panicked "Clear database failed"

end DatabaseMempool

/-!
Part 3: sequences of interface operations over a fault-free backend (used
to state store invariants), the per-operation fault-reach conditions of the
write paths, and small concrete fixtures used to instantiate theorems with
hypotheses.
-/

/-- A mutating interface operation (the reads do not change the store). -/
inductive Cmd
  | addC (u : UserOperation)
  | removeC (h : ByteList)
  | setCodeHashesC (h : ByteList) (chs : List CodeHash)
  | clearC
deriving DecidableEq, Repr

/-- The store state visible after one mutating call on a fault-free
backend: the committed state on success, the unchanged pre-state when the
call returns an error (or, for `clear`, panics) — an uncommitted
transaction leaves nothing behind. -/
def applyCmd (keccak : ByteList → ByteList) (ep c : Nat) (st : DBState) :
    Cmd → DBState
  | .addC u =>
      match DatabaseMempool.add keccak noFaults st u ep c with
      | .ok (_, st1) => st1
      | .error _ => st
  | .removeC h =>
      match DatabaseMempool.remove noFaults st h with
      | .ok st1 => st1
      | .error _ => st
  | .setCodeHashesC h chs =>
      match DatabaseMempool.set_code_hashes noFaults st h chs with
      | .ok st1 => st1
      | .error _ => st
  | .clearC =>
      match DatabaseMempool.clear noFaults st with
      | .ok st1 => st1
      | .panicked _ => st

/-- Run a sequence of mutating calls from a given state. -/
def runSeq (keccak : ByteList → ByteList) (ep c : Nat) (st : DBState)
    (cmds : List Cmd) : DBState :=
  cmds.foldl (applyCmd keccak ep c) st

/-- Referential consistency: every (sender, operation) entry of the sender
index carries its operation's sender as key, and the primary table stores
that very operation under its derived identifier. -/
abbrev Consistent (keccak : ByteList → ByteList) (ep c : Nat)
    (st : DBState) : Prop :=
  ∀ p ∈ st.senderUserOpDB,
    p.1 = p.2.sender ∧
      tblGet st.userOpDB (p.2.hash keccak ep c) = some p.2

/-- A call is hash-collision-free in a state when, if it is an `add`, the
primary table does not already map the operation's derived identifier to a
different operation. -/
def safeCmd (keccak : ByteList → ByteList) (ep c : Nat) (st : DBState) :
    Cmd → Bool
  | .addC u =>
      match tblGet st.userOpDB (u.hash keccak ep c) with
      | none => true
      | some u1 => decide (u1 = u)
  | _ => true

/-- Every call of the sequence is hash-collision-free in the state it runs
in. -/
def safeSeq (keccak : ByteList → ByteList) (ep c : Nat) (st : DBState) :
    List Cmd → Bool
  | [] => true
  | cmd :: rest =>
      safeCmd keccak ep c st cmd &&
        safeSeq keccak ep c (applyCmd keccak ep c st cmd) rest

/-- `add` reaches an injected fault iff the transaction begin, a put, or
the commit is set to fail. -/
def addFaultHit (f : Faults) : Bool := f.txRW || f.putStep || f.commitStep

/-- `remove` reaches an injected fault iff the transaction begin or the
lookup fails, or the operation is present and a delete or the commit
fails. -/
def removeFaultHit (f : Faults) (st : DBState) (h : ByteList) : Bool :=
  f.txRW || f.getStep ||
    ((tblGet st.userOpDB h).isSome && (f.delStep || f.commitStep))

/-- `set_code_hashes` reaches an injected fault iff the transaction begin,
the lookup, the delete (when records exist), a put (when the new sequence
is nonempty), or the commit fails. -/
def setCodeHashesFaultHit (f : Faults) (st : DBState) (h : ByteList)
    (chs : List CodeHash) : Bool :=
  f.txRW || f.getStep ||
    ((tblGet st.codeHashDB h).isSome && f.delStep) ||
    (!chs.isEmpty && f.putStep) || f.commitStep

/-- `clear` reaches an injected fault iff the transaction begin, a table
clear, or the commit fails. -/
def clearFaultHit (f : Faults) : Bool := f.txRW || f.clearStep || f.commitStep

/-- A stand-in for the external 256-bit hash primitive, small enough for
the kernel to evaluate when instantiating theorems on concrete inputs (the
theorems themselves hold for every hash function). -/
def tinyKeccak (l : ByteList) : ByteList :=
  [l.length % 256, (l.foldl (fun a b => a + b) 0) % 256]

/-- A concrete operation (zero fields, one-byte signature `[0]`). -/
def uopA : UserOperation := ⟨0, 0, [], [], 0, 0, 0, 0, 0, [], [0]⟩

/-- The same operation with signature `[1]`: a different record with the
same derived identifier. -/
def uopB : UserOperation := { uopA with signature := [1] }

/-- The shared identifier of `uopA` and `uopB` under `tinyKeccak`, entry
point 5, chain id 1. -/
def hashAB : ByteList := uopA.hash tinyKeccak 5 1

/-- The store holding exactly `uopA`, as committed by
`add tinyKeccak noFaults emptyDB uopA 5 1`. -/
def stA : DBState := ⟨[(hashAB, uopA)], [(0, uopA)], []⟩

/-- A backend whose read-only transactions fail to begin. -/
def roFault : Faults := { txRO := true }

/-- A backend whose read-write transactions fail to begin. -/
def rwFault : Faults := { txRW := true }

/-- A concrete operation offering max priority fee 2 at nonce 3. -/
def opHi : UserOperation := ⟨2, 3, [], [], 0, 0, 0, 0, 2, [], []⟩

/-- A store holding `opHi` in its primary table. -/
def stSort : DBState := ⟨[([1], opHi)], [], []⟩

/-- A sequence whose second `add` collides on the derived identifier: the
store ends with a dangling sender-index entry. -/
def badSeq : List Cmd := [.addC uopA, .addC uopB, .removeC hashAB]

/-- A collision-free sequence exercising every mutating operation. -/
def goodSeq : List Cmd :=
  [.addC uopA, .setCodeHashesC hashAB [⟨1, 2⟩], .removeC hashAB,
   .addC uopB, .clearC]

section TableLemmas

variable {κ α : Type} [DecidableEq κ]

theorem tblGet_tblDelKey (t : List (κ × α)) (h h' : κ) :
    tblGet (tblDelKey t h) h' = if h' = h then none else tblGet t h' := by
  induction t with
  | nil => simp [tblDelKey, tblGet]
  | cons p rest ih =>
    obtain ⟨k, v⟩ := p
    by_cases hk : k = h
    · subst hk
      have hstep : tblDelKey ((k, v) :: rest) k = tblDelKey rest k := by
        simp [tblDelKey]
      rw [hstep, ih]
      by_cases hh : h' = k
      · simp [hh]
      · simp [tblGet, hh, Ne.symm hh]
    · simp only [tblDelKey, if_neg hk]
      by_cases hk' : k = h'
      · have hne : ¬h' = h := fun hc => hk (hk'.trans hc)
        simp [tblGet, hk', hne]
      · simp [tblGet, hk', ih]

theorem tblGet_tblPut (t : List (κ × α)) (h : κ) (v : α) (h' : κ) :
    tblGet (tblPut t h v) h' = if h' = h then some v else tblGet t h' := by
  by_cases hh : h' = h
  · subst hh
    simp [tblPut, tblGet]
  · simp [tblPut, tblGet, hh, Ne.symm hh, tblGet_tblDelKey]

theorem mem_dupPut [DecidableEq α] (t : List (κ × α)) (k : κ) (v : α) (x : κ × α) :
    x ∈ dupPut t k v ↔ x ∈ t ∨ x = (k, v) := by
  unfold dupPut
  by_cases hm : (k, v) ∈ t
  · simp only [hm, if_true]
    constructor
    · exact Or.inl
    · rintro (hx | rfl) <;> assumption
  · simp [hm]

theorem mem_dupDelVal [DecidableEq α] (t : List (κ × α)) (k : κ) (v : α)
    (x : κ × α) : x ∈ dupDelVal t k v ↔ x ∈ t ∧ x ≠ (k, v) := by
  induction t with
  | nil => simp [dupDelVal]
  | cons p rest ih =>
    by_cases hp : p = (k, v)
    · subst hp
      simp only [dupDelVal, if_pos rfl, ih, List.mem_cons]
      tauto
    · simp only [dupDelVal, if_neg hp, List.mem_cons, ih]
      constructor
      · rintro (rfl | ⟨hx, hne⟩)
        · exact ⟨Or.inl rfl, hp⟩
        · exact ⟨Or.inr hx, hne⟩
      · rintro ⟨rfl | hx, hne⟩
        · exact Or.inl rfl
        · exact Or.inr ⟨hx, hne⟩

theorem mem_dupWalk (t : List (κ × α)) (k : κ) (v : α) :
    v ∈ dupWalk t k ↔ (k, v) ∈ t := by
  induction t with
  | nil => simp [dupWalk]
  | cons p rest ih =>
    obtain ⟨k', v'⟩ := p
    by_cases hk : k' = k
    · subst hk
      simp [dupWalk, ih]
    · simp [dupWalk, hk, ih, Ne.symm hk]

theorem dupWalk_append (t s : List (κ × α)) (k : κ) :
    dupWalk (t ++ s) k = dupWalk t k ++ dupWalk s k := by
  induction t with
  | nil => simp [dupWalk]
  | cons p rest ih =>
    obtain ⟨k', v'⟩ := p
    by_cases hk : k' = k <;> simp [dupWalk, hk, ih]

theorem dupWalk_dupPut_self [DecidableEq α] (t : List (κ × α)) (k : κ) (v : α) :
    dupWalk (dupPut t k v) k =
      if (k, v) ∈ t then dupWalk t k else dupWalk t k ++ [v] := by
  unfold dupPut
  by_cases hm : (k, v) ∈ t
  · simp [hm]
  · simp [hm, dupWalk_append, dupWalk]

theorem dupWalk_tblDelKey_self (t : List (κ × α)) (k : κ) :
    dupWalk (tblDelKey t k) k = [] := by
  induction t with
  | nil => rfl
  | cons p rest ih =>
    obtain ⟨k', v'⟩ := p
    by_cases hk : k' = k <;> simp [tblDelKey, dupWalk, hk, ih]

theorem dupWalk_eq_nil_of_tblGet_none (t : List (κ × α)) (k : κ)
    (hget : tblGet t k = none) : dupWalk t k = [] := by
  induction t with
  | nil => rfl
  | cons p rest ih =>
    obtain ⟨k', v'⟩ := p
    by_cases hk : k' = k
    · subst hk
      simp [tblGet] at hget
    · simp only [tblGet, if_neg hk] at hget
      simp [dupWalk, hk, ih hget]

end TableLemmas

section OpLemmas

/-- Evaluation of `add` on the fault-free backend. -/
theorem add_noFaults (keccak : ByteList → ByteList) (st : DBState)
    (u : UserOperation) (ep c : Nat) :
    DatabaseMempool.add keccak noFaults st u ep c =
      .ok (u.hash keccak ep c,
        ⟨tblPut st.userOpDB (u.hash keccak ep c) u,
         dupPut st.senderUserOpDB u.sender u,
         st.codeHashDB⟩) := rfl

/-- Evaluation of `get` on the fault-free backend. -/
theorem get_noFaults (st : DBState) (h : ByteList) :
    DatabaseMempool.get noFaults st h = .ok (tblGet st.userOpDB h) := rfl

/-- Evaluation of `remove` on the fault-free backend, present case. -/
theorem remove_noFaults_some (st : DBState) (h : ByteList)
    (u : UserOperation) (hget : tblGet st.userOpDB h = some u) :
    DatabaseMempool.remove noFaults st h =
      .ok ⟨tblDelKey st.userOpDB h,
           dupDelVal st.senderUserOpDB u.sender u,
           tblDelKey st.codeHashDB h⟩ := by
  unfold DatabaseMempool.remove
  rw [hget]
  rfl

/-- Evaluation of `remove` on the fault-free backend, absent case. -/
theorem remove_noFaults_none (st : DBState) (h : ByteList)
    (hget : tblGet st.userOpDB h = none) :
    DatabaseMempool.remove noFaults st h = .error .NotFound := by
  unfold DatabaseMempool.remove
  rw [hget]
  rfl

/-- Evaluation of `set_code_hashes` on the fault-free backend. -/
theorem set_code_hashes_noFaults (st : DBState) (h : ByteList)
    (chs : List CodeHash) :
    DatabaseMempool.set_code_hashes noFaults st h chs =
      .ok ⟨st.userOpDB, st.senderUserOpDB,
        chs.foldl (fun t ch => dupPut t h ch)
          (if (tblGet st.codeHashDB h).isSome then tblDelKey st.codeHashDB h
           else st.codeHashDB)⟩ := by
  unfold DatabaseMempool.set_code_hashes
  cases hr : tblGet st.codeHashDB h <;> cases chs <;> rfl

/-- Evaluation of `clear` on the fault-free backend. -/
theorem clear_noFaults (st : DBState) :
    DatabaseMempool.clear noFaults st = .ok ⟨[], [], st.codeHashDB⟩ := rfl

/-- Evaluation of `get_code_hashes` on the fault-free backend. -/
theorem get_code_hashes_noFaults (st : DBState) (h : ByteList) :
    DatabaseMempool.get_code_hashes noFaults st h =
      dupWalk st.codeHashDB h := rfl

/-- Evaluation of `get_sorted` on the fault-free backend. -/
theorem get_sorted_noFaults (st : DBState) :
    DatabaseMempool.get_sorted noFaults st =
      .ok ((st.userOpDB.map (fun p => p.2)).mergeSort
        DatabaseMempool.uoLE) := rfl

end OpLemmas

/-- C1: for every operation, entry point and chain id, the identifier
returned by `UserOperation.hash` is `H2` where
`H1 = keccak(pack_for_signature u)` and
`H2 = keccak(H1 ++ abi_encode(entry_point) ++ abi_encode(chain_id))`. -/
theorem hash_eq_spec_identifier (keccak : ByteList → ByteList)
    (u : UserOperation) (entry_point chain_id : Nat) :
    u.hash keccak entry_point chain_id =
      specIdentifier keccak u entry_point chain_id := by
  simp [UserOperation.hash, specIdentifier, List.flatten]

/-- C2: the identifier is insensitive to the signature field — two
operations agreeing on all fields except `signature` hash identically. -/
theorem hash_ignores_signature (keccak : ByteList → ByteList)
    (u : UserOperation) (s1 s2 : ByteList) (entry_point chain_id : Nat) :
    UserOperation.hash keccak { u with signature := s1 } entry_point chain_id =
      UserOperation.hash keccak { u with signature := s2 } entry_point
        chain_id := rfl

section ExceptLemmas

@[simp] theorem failIf_false : failIf false = .ok () := rfl

@[simp] theorem failIf_true : failIf true = .error .DBInternalError := rfl

@[simp] theorem except_bind_ok {ε α β : Type} (a : α) (k : α → Except ε β) :
    (Except.ok a >>= k) = k a := rfl

@[simp] theorem except_bind_error {ε α β : Type} (e : ε)
    (k : α → Except ε β) : (Except.error e >>= k) = Except.error e := rfl

@[simp] theorem except_pure {ε α : Type} (a : α) :
    (pure a : Except ε α) = Except.ok a := rfl

end ExceptLemmas

/-- C3: round trip — when `add` succeeds and returns the identifier `h`,
a subsequent `get h` returns the identical operation (all eleven
fields). -/
theorem get_after_add (keccak : ByteList → ByteList) (st : DBState)
    (u : UserOperation) (ep c : Nat) (h : ByteList) (st1 : DBState)
    (hadd : DatabaseMempool.add keccak noFaults st u ep c = .ok (h, st1)) :
    DatabaseMempool.get noFaults st1 h = .ok (some u) := by
  rw [add_noFaults] at hadd
  injection hadd with hpair
  injection hpair with hh hst
  subst hh
  subst hst
  rw [get_noFaults, tblGet_tblPut]
  simp

/-- Witness for C3: adding `uopA` to the empty store and reading its
identifier back yields `uopA`. -/
theorem get_after_add_witness :
    DatabaseMempool.get noFaults stA hashAB = .ok (some uopA) :=
  get_after_add tinyKeccak emptyDB uopA 5 1 hashAB stA rfl

/-- C10: frame of `clear` — on the fault-free backend it empties the
primary table and the sender index and leaves the code-hash table exactly
unchanged. -/
theorem clear_empties_primary_and_sender_only (st : DBState) :
    DatabaseMempool.clear noFaults st =
      .ok ⟨[], [], st.codeHashDB⟩ := rfl

/-- C8: each of the three degraded read paths returns the empty sequence
whenever its backend computation fails at any point (transaction begin,
cursor open, a cursor step, or commit). -/
theorem read_paths_empty_on_backend_failure (f : Faults) (st : DBState)
    (sender : Nat) (h : ByteList) (e1 e2 e3 : DBError) :
    (DatabaseMempool.get_all_by_senderE f st sender = .error e1 →
      DatabaseMempool.get_all_by_sender f st sender = []) ∧
    (DatabaseMempool.get_allE f st = .error e2 →
      DatabaseMempool.get_all f st = []) ∧
    (DatabaseMempool.get_code_hashesE f st h = .error e3 →
      DatabaseMempool.get_code_hashes f st h = []) := by
  refine ⟨fun h1 => ?_, fun h2 => ?_, fun h3 => ?_⟩
  · simp [DatabaseMempool.get_all_by_sender, h1]
  · simp [DatabaseMempool.get_all, h2]
  · simp [DatabaseMempool.get_code_hashes, h3]

/-- Witness for C8: a backend whose read transaction fails to begin makes
all three read paths return the empty sequence. -/
theorem read_paths_empty_witness :
    DatabaseMempool.get_all_by_sender roFault emptyDB 0 = [] ∧
    DatabaseMempool.get_all roFault emptyDB = [] ∧
    DatabaseMempool.get_code_hashes roFault emptyDB [] = [] :=
  ⟨(read_paths_empty_on_backend_failure roFault emptyDB 0 []
      .DBInternalError .DBInternalError .DBInternalError).1 rfl,
   (read_paths_empty_on_backend_failure roFault emptyDB 0 []
      .DBInternalError .DBInternalError .DBInternalError).2.1 rfl,
   (read_paths_empty_on_backend_failure roFault emptyDB 0 []
      .DBInternalError .DBInternalError .DBInternalError).2.2 rfl⟩

section FoldlDupPutLemmas

variable {κ α : Type} [DecidableEq κ] [DecidableEq α]

theorem mem_dupWalk_foldl (l : List α) (t : List (κ × α)) (k : κ) (v : α) :
    v ∈ dupWalk (l.foldl (fun t1 x => dupPut t1 k x) t) k ↔
      v ∈ dupWalk t k ∨ v ∈ l := by
  induction l generalizing t with
  | nil => simp
  | cons x xs ih =>
    simp only [List.foldl_cons, ih, List.mem_cons, mem_dupWalk, mem_dupPut,
      Prod.mk.injEq, true_and]
    tauto

theorem nodup_dupWalk_foldl (l : List α) (t : List (κ × α)) (k : κ)
    (hnd : (dupWalk t k).Nodup) :
    (dupWalk (l.foldl (fun t1 x => dupPut t1 k x) t) k).Nodup := by
  induction l generalizing t with
  | nil => exact hnd
  | cons x xs ih =>
    simp only [List.foldl_cons]
    refine ih _ ?_
    rw [dupWalk_dupPut_self]
    by_cases hm : (k, x) ∈ t
    · simpa [hm] using hnd
    · have hx : x ∉ dupWalk t k := fun hc => hm ((mem_dupWalk t k x).mp hc)
      simp [hm, List.nodup_append, hnd, hx]

end FoldlDupPutLemmas

/-- C5: full-replace semantics — after `set_code_hashes h A` then
`set_code_hashes h B`, `get_code_hashes h` holds exactly the records of
`B` (never the union of `A` and `B`) with no duplicates appended across
calls. -/
theorem set_code_hashes_full_replace (st : DBState) (h : ByteList)
    (A B : List CodeHash) (st1 st2 : DBState)
    (_h1 : DatabaseMempool.set_code_hashes noFaults st h A = .ok st1)
    (h2 : DatabaseMempool.set_code_hashes noFaults st1 h B = .ok st2) :
    (∀ ch, ch ∈ DatabaseMempool.get_code_hashes noFaults st2 h ↔ ch ∈ B) ∧
    (DatabaseMempool.get_code_hashes noFaults st2 h).Nodup := by
  rw [set_code_hashes_noFaults] at h2
  injection h2 with hst2
  subst hst2
  simp only [get_code_hashes_noFaults]
  have hbase : dupWalk
      (if (tblGet st1.codeHashDB h).isSome then tblDelKey st1.codeHashDB h
       else st1.codeHashDB) h = [] := by
    by_cases hr : (tblGet st1.codeHashDB h).isSome
    · simp [hr, dupWalk_tblDelKey_self]
    · rw [if_neg hr]
      exact dupWalk_eq_nil_of_tblGet_none _ _
        (Option.not_isSome_iff_eq_none.mp hr)
  constructor
  · intro ch
    rw [mem_dupWalk_foldl, hbase]
    simp
  · refine nodup_dupWalk_foldl _ _ _ ?_
    rw [hbase]
    exact List.nodup_nil

/-- Witness for C5: replacing `[(1, 2)]` by `[(3, 4), (5, 6)]` under key
`[7]` leaves a duplicate-free record set. -/
theorem set_code_hashes_full_replace_witness :
    (DatabaseMempool.get_code_hashes noFaults
      ⟨[], [], [([7], ⟨3, 4⟩), ([7], ⟨5, 6⟩)]⟩ [7]).Nodup :=
  (set_code_hashes_full_replace emptyDB [7] [⟨1, 2⟩] [⟨3, 4⟩, ⟨5, 6⟩]
    ⟨[], [], [([7], ⟨1, 2⟩)]⟩ ⟨[], [], [([7], ⟨3, 4⟩), ([7], ⟨5, 6⟩)]⟩
    rfl rfl).2

section SortLemmas

theorem uoLE_trans (a b c1 : UserOperation) (h1 : DatabaseMempool.uoLE a b)
    (h2 : DatabaseMempool.uoLE b c1) : DatabaseMempool.uoLE a c1 := by
  unfold DatabaseMempool.uoLE at *
  split_ifs at * <;> simp_all <;> omega

theorem uoLE_total (a b : UserOperation) :
    DatabaseMempool.uoLE a b || DatabaseMempool.uoLE b a := by
  unfold DatabaseMempool.uoLE
  split_ifs <;> simp_all <;> omega

end SortLemmas

/-- C4: `get_sorted` is non-increasing in max priority fee per gas, and
within equal fee groups non-decreasing in nonce. -/
theorem get_sorted_ordering (st : DBState) (l : List UserOperation)
    (hs : DatabaseMempool.get_sorted noFaults st = .ok l) :
    l.Pairwise (fun a b =>
      b.max_priority_fee_per_gas ≤ a.max_priority_fee_per_gas ∧
      (a.max_priority_fee_per_gas = b.max_priority_fee_per_gas →
        a.nonce ≤ b.nonce)) := by
  rw [get_sorted_noFaults] at hs
  injection hs with hl
  subst hl
  refine List.Pairwise.imp ?_
    (List.sorted_mergeSort uoLE_trans uoLE_total _)
  intro a b hab
  unfold DatabaseMempool.uoLE at hab
  by_cases hf : a.max_priority_fee_per_gas = b.max_priority_fee_per_gas
  · rw [if_pos hf] at hab
    simp only [decide_eq_true_eq] at hab
    exact ⟨le_of_eq hf.symm, fun _ => hab⟩
  · rw [if_neg hf] at hab
    simp only [decide_eq_true_eq] at hab
    exact ⟨le_of_lt hab, fun hc => absurd hc hf⟩

/-- Witness for C4: sorting the store that holds exactly `opHi`. -/
theorem get_sorted_ordering_witness :
    ([opHi] : List UserOperation).Pairwise (fun a b =>
      b.max_priority_fee_per_gas ≤ a.max_priority_fee_per_gas ∧
      (a.max_priority_fee_per_gas = b.max_priority_fee_per_gas →
        a.nonce ≤ b.nonce)) :=
  get_sorted_ordering stSort [opHi]
    (by simp [get_sorted_noFaults, stSort])

/-- C6: `remove` returns `NotFound` exactly when the identifier is absent
from the primary table, in that case leaving the visible state unchanged;
when the identifier is present it succeeds and the committed state has the
operation deleted from the primary table, its (sender, operation) pair
deleted from the sender index, and every code-hash record under the
identifier deleted — all in the one committed transaction. -/
theorem remove_semantics (keccak : ByteList → ByteList) (ep c : Nat)
    (st : DBState) (h : ByteList) (u : UserOperation) :
    (DatabaseMempool.remove noFaults st h = .error .NotFound ↔
      tblGet st.userOpDB h = none) ∧
    (tblGet st.userOpDB h = none →
      applyCmd keccak ep c st (.removeC h) = st) ∧
    (tblGet st.userOpDB h = some u →
      DatabaseMempool.remove noFaults st h =
        .ok ⟨tblDelKey st.userOpDB h,
             dupDelVal st.senderUserOpDB u.sender u,
             tblDelKey st.codeHashDB h⟩) := by
  refine ⟨⟨fun hnf => ?_, remove_noFaults_none st h⟩, fun hn => ?_,
    remove_noFaults_some st h u⟩
  · cases hg : tblGet st.userOpDB h with
    | none => rfl
    | some u0 =>
      rw [remove_noFaults_some st h u0 hg] at hnf
      exact absurd hnf (by simp)
  · simp [applyCmd, remove_noFaults_none st h hn]

set_option maxRecDepth 20000 in
/-- Witness for C6: removing `uopA`'s identifier from the store holding
exactly `uopA`. -/
theorem remove_semantics_witness :
    DatabaseMempool.remove noFaults stA hashAB =
      .ok ⟨tblDelKey stA.userOpDB hashAB,
           dupDelVal stA.senderUserOpDB uopA.sender uopA,
           tblDelKey stA.codeHashDB hashAB⟩ :=
  (remove_semantics tinyKeccak 5 1 stA hashAB uopA).2.2 rfl

/-- C9 counterexample: a backend failure during `clear` is converted into
a panic (abnormal termination), never surfacing as an error value — the
operation's interface returns no error at all. -/
theorem clear_backend_failure_panics :
    DatabaseMempool.clear rwFault emptyDB =
      DatabaseMempool.ClearOutcome.panicked "Clear database failed" := rfl

/-- C9 (amended): a backend failure reached during `add`, `remove`, or
`set_code_hashes` is propagated to the caller as the explicit internal
error value; a backend failure reached during `clear` aborts with a panic
instead of returning an error value. -/
theorem write_paths_propagate_errors (keccak : ByteList → ByteList)
    (f : Faults) (st : DBState) (u : UserOperation) (ep c : Nat)
    (h : ByteList) (chs : List CodeHash) :
    (addFaultHit f = true →
      DatabaseMempool.add keccak f st u ep c = .error .DBInternalError) ∧
    (removeFaultHit f st h = true →
      DatabaseMempool.remove f st h = .error .DBInternalError) ∧
    (setCodeHashesFaultHit f st h chs = true →
      DatabaseMempool.set_code_hashes f st h chs =
        .error .DBInternalError) ∧
    (clearFaultHit f = true →
      DatabaseMempool.clear f st =
        DatabaseMempool.ClearOutcome.panicked "Clear database failed") := by
  refine ⟨fun ha => ?_, fun hr => ?_, fun hs => ?_, fun hc => ?_⟩
  · unfold DatabaseMempool.add
    cases htx : f.txRW <;> cases hput : f.putStep <;>
      cases hcom : f.commitStep <;> simp_all [addFaultHit]
  · unfold DatabaseMempool.remove
    cases htx : f.txRW <;> cases hget : f.getStep <;>
      cases hdel : f.delStep <;> cases hcom : f.commitStep <;>
        cases hu : tblGet st.userOpDB h <;>
          simp_all [removeFaultHit]
  · unfold DatabaseMempool.set_code_hashes
    cases htx : f.txRW <;> cases hget : f.getStep <;>
      cases hdel : f.delStep <;> cases hput : f.putStep <;>
        cases hcom : f.commitStep <;>
          cases hu : tblGet st.codeHashDB h <;>
            cases chs <;> simp_all [setCodeHashesFaultHit]
  · unfold DatabaseMempool.clear DatabaseMempool.clearE
    cases htx : f.txRW <;> cases hcl : f.clearStep <;>
      cases hcom : f.commitStep <;> simp_all [clearFaultHit]

/-- Witness for C9 (amended): a backend whose write transaction fails to
begin makes every mutating call fail accordingly. -/
theorem write_paths_propagate_errors_witness :
    DatabaseMempool.add tinyKeccak rwFault emptyDB uopA 5 1 =
      .error .DBInternalError ∧
    DatabaseMempool.remove rwFault emptyDB hashAB =
      .error .DBInternalError ∧
    DatabaseMempool.set_code_hashes rwFault emptyDB hashAB [] =
      .error .DBInternalError ∧
    DatabaseMempool.clear rwFault emptyDB =
      DatabaseMempool.ClearOutcome.panicked "Clear database failed" :=
  ⟨(write_paths_propagate_errors tinyKeccak rwFault emptyDB uopA 5 1
      hashAB []).1 rfl,
   (write_paths_propagate_errors tinyKeccak rwFault emptyDB uopA 5 1
      hashAB []).2.1 rfl,
   (write_paths_propagate_errors tinyKeccak rwFault emptyDB uopA 5 1
      hashAB []).2.2.1 rfl,
   (write_paths_propagate_errors tinyKeccak rwFault emptyDB uopA 5 1
      hashAB []).2.2.2 rfl⟩

section ConsistencyLemmas

theorem applyCmd_addC (keccak : ByteList → ByteList) (ep c : Nat)
    (st : DBState) (u : UserOperation) :
    applyCmd keccak ep c st (.addC u) =
      ⟨tblPut st.userOpDB (u.hash keccak ep c) u,
       dupPut st.senderUserOpDB u.sender u, st.codeHashDB⟩ := by
  simp [applyCmd, add_noFaults]

/-- One fault-free mutating call preserves referential consistency,
provided an `add` does not collide with a different operation already
stored under the same derived identifier. -/
theorem consistent_applyCmd (keccak : ByteList → ByteList) (ep c : Nat)
    (st : DBState) (cmd : Cmd)
    (hcons : Consistent keccak ep c st)
    (hsafe : safeCmd keccak ep c st cmd = true) :
    Consistent keccak ep c (applyCmd keccak ep c st cmd) := by
  cases cmd with
  | addC u =>
    rw [applyCmd_addC]
    rintro ⟨s, op⟩ hp
    rw [mem_dupPut] at hp
    rcases hp with hp | hp
    · obtain ⟨hfst, hsnd⟩ := hcons ⟨s, op⟩ hp
      refine ⟨hfst, ?_⟩
      simp only at hsnd ⊢
      rw [tblGet_tblPut]
      by_cases hh : op.hash keccak ep c = u.hash keccak ep c
      · rw [if_pos hh]
        rw [hh] at hsnd
        simp only [safeCmd] at hsafe
        rw [hsnd] at hsafe
        simp only [decide_eq_true_eq] at hsafe
        rw [hsafe]
      · rw [if_neg hh]
        exact hsnd
    · injection hp with hs hop
      subst hs
      subst hop
      refine ⟨rfl, ?_⟩
      simp only
      rw [tblGet_tblPut, if_pos rfl]
  | removeC h =>
    cases hg : tblGet st.userOpDB h with
    | none =>
      simpa [applyCmd, remove_noFaults_none st h hg] using hcons
    | some u0 =>
      simp only [applyCmd, remove_noFaults_some st h u0 hg]
      rintro ⟨s, op⟩ hp
      rw [mem_dupDelVal] at hp
      obtain ⟨hmem, hne⟩ := hp
      obtain ⟨hfst, hsnd⟩ := hcons ⟨s, op⟩ hmem
      simp only at hfst hsnd
      refine ⟨hfst, ?_⟩
      simp only
      rw [tblGet_tblDelKey]
      by_cases hh : op.hash keccak ep c = h
      · exfalso
        rw [hh, hg] at hsnd
        injection hsnd with hu0
        apply hne
        rw [hfst, ← hu0]
      · rw [if_neg hh]
        exact hsnd
  | setCodeHashesC h chs =>
    simp only [applyCmd, set_code_hashes_noFaults]
    exact fun p hp => hcons p hp
  | clearC =>
    simp only [applyCmd, clear_noFaults]
    rintro p hp
    cases hp

/-- A fault-free, collision-free command sequence preserves referential
consistency. -/
theorem consistent_runSeq (keccak : ByteList → ByteList) (ep c : Nat) :
    ∀ (cmds : List Cmd) (st : DBState),
      Consistent keccak ep c st →
      safeSeq keccak ep c st cmds = true →
      Consistent keccak ep c (runSeq keccak ep c st cmds)
  | [], _, hcons, _ => hcons
  | cmd :: rest, st, hcons, hsafe => by
    simp only [safeSeq, Bool.and_eq_true] at hsafe
    exact consistent_runSeq keccak ep c rest (applyCmd keccak ep c st cmd)
      (consistent_applyCmd keccak ep c st cmd hcons hsafe.1) hsafe.2

end ConsistencyLemmas

set_option maxRecDepth 40000 in
/-- C7 counterexample: adding `uopA`, then `uopB` (same derived
identifier, different signature), then removing the identifier leaves the
sender index holding `uopA` while the primary table no longer stores it —
referential consistency is violated after a legal sequence of interface
operations. -/
theorem sender_index_consistency_counterexample :
    ¬ Consistent tinyKeccak 5 1 (runSeq tinyKeccak 5 1 emptyDB badSeq) := by
  decide

/-- C7 (amended): after every sequence of mutating interface operations in
which no `add` is invoked while the primary table already maps the
operation's derived identifier to a different operation record, every
(sender, operation) entry of the sender index keys the operation's sender
and the primary table stores that operation under its derived
identifier. -/
theorem sender_index_consistency (keccak : ByteList → ByteList)
    (ep c : Nat) (cmds : List Cmd)
    (hsafe : safeSeq keccak ep c emptyDB cmds = true) :
    Consistent keccak ep c (runSeq keccak ep c emptyDB cmds) :=
  consistent_runSeq keccak ep c cmds emptyDB
    (fun p hp => absurd hp (List.not_mem_nil p)) hsafe

set_option maxRecDepth 40000 in
/-- Witness for C7 (amended): a collision-free sequence exercising every
mutating operation ends referentially consistent. -/
theorem sender_index_consistency_witness :
    Consistent tinyKeccak 5 1 (runSeq tinyKeccak 5 1 emptyDB goodSeq) :=
  sender_index_consistency tinyKeccak 5 1 goodSeq (by decide)
